import Mathlib

set_option maxRecDepth 8000

/-! Shallow embedding of the write-once memory machine from
`executor/src/witgen/machines/write_once_memory.rs` of the powdr repository.
Pure Rust functions become Lean functions; the mutation of `self.data` in
`process_plookup_internal` is modelled by returning the updated machine state
alongside the result.  `BTreeMap` is modelled as an association list with
first-match lookup and replacing insert. -/

/-- The kind of a polynomial (`PolynomialType` in `ast`): fixed (`Constant`)
columns form the address space, `Committed` (witness) columns the payload. -/
inductive PolynomialType where
  | Committed
  | Constant
  | Intermediate
  deriving DecidableEq

/-- A polynomial identifier (`PolyID` in `ast`). -/
structure PolyID where
  id : Nat
  ptype : PolynomialType
  deriving DecidableEq

/-- A reference to a polynomial, possibly on the shifted ("next") row
(`AlgebraicReference` in `ast`). -/
structure AlgebraicReference where
  poly_id : PolyID
  next : Bool
  deriving DecidableEq

/-- An algebraic expression (`AlgebraicExpression` in `ast`).  The machine only
distinguishes direct polynomial references from everything else (compound
expressions), so compound expressions are abstracted to a tag. -/
inductive Expression (F : Type) where
  | ref (r : AlgebraicReference)
  | compound (tag : Nat)
  deriving DecidableEq

/-- One side of a lookup identity (`SelectedExpressions` in `ast`). -/
structure SelectedExpressions (F : Type) where
  selector : Option (Expression F)
  expressions : List (Expression F)
  deriving DecidableEq

/-- An identity; `try_new` only inspects the right-hand side. -/
structure Identity (F : Type) where
  right : SelectedExpressions F
  deriving DecidableEq

/-- The kind of an identity (`IdentityKind` in `ast`). -/
inductive IdentityKind where
  | Polynomial
  | Plookup
  | Permutation
  | Connection
  deriving DecidableEq

/-- Modelled from the spec: `FixedData` (defined in `witgen/mod.rs`, not part of
the given sources) supplies the trace degree, the fixed-column values (total
over rows), the externally provided witness columns, and column names. -/
structure FixedData (F : Type) where
  degree : Nat
  fixedCols : PolyID → Nat → F
  externalValues : PolyID → Option (List F)
  columnName : PolyID → String

/-- Modelled from the spec: an affine expression is a linear combination of
unknown variables plus a constant over the field (`AffineExpression` in
`witgen/affine_expression.rs`, not part of the given sources). -/
structure AffineExpression (V F : Type) where
  coeffs : List (V × F)
  offset : F

/-- `util::try_to_simple_poly` (not part of the given sources): a direct
reference to exactly one polynomial, or `none` for a compound expression. -/
def try_to_simple_poly {F : Type} : Expression F → Option AlgebraicReference
  | .ref r => some r
  | .compound _ => none

/-- Whether a polynomial type is `Constant` (a fixed column). -/
def PolynomialType.isConstant : PolynomialType → Bool
  | .Constant => true
  | _ => false

/-- The partition predicate of `process_plookup_internal`: the Rust code
unwraps `try_to_simple_poly` here; the caller guarantees the descriptor is the
machine's own right-hand side, whose expressions are all simple references
(checked at construction), so the `none` case is unreachable there. -/
def isConstantRef {F : Type} (e : Expression F) : Bool :=
  match try_to_simple_poly e with
  | some p => p.poly_id.ptype.isConstant
  | none => false

/-- Modelled from the spec: `AffineExpression::constant_value` returns the
offset iff no variable has a nonzero coefficient. -/
def constant_value {V F : Type} [Zero F] [DecidableEq F] (e : AffineExpression V F) : Option F :=
  if e.coeffs.all fun vc => decide (vc.2 = 0) then some e.offset else none

/-- Subtracting a constant from an affine expression
(`l.clone() - (*r).into()` in the Rust code). -/
def subConstant {V F : Type} [Sub F] (e : AffineExpression V F) (c : F) : AffineExpression V F :=
  ⟨e.coeffs, e.offset - c⟩

/-- Modelled from the spec: the affine solving primitive
(`AffineExpression::solve`, not part of the given sources).  Contract per the
spec: input an equation (expression required to be zero), output zero or more
concrete variable bindings, or a contradiction signal; a constant nonzero
equation is a contradiction, a single-variable equation is solved, and an
equation with several unknowns yields no bindings yet. -/
def solve {V F : Type} [Field F] [DecidableEq F] (e : AffineExpression V F) :
    Except String (List (V × F)) :=
  match e.coeffs.filter fun vc => decide (vc.2 ≠ 0) with
  | [] => if e.offset = 0 then .ok [] else .error "constraint unsatisfiable"
  | [vc] => .ok [(vc.1, -e.offset / vc.2)]
  | _ => .ok []

/-- First-match lookup in an association list (the `BTreeMap::get` model). -/
def alistLookup {κ α : Type} [DecidableEq κ] (m : List (κ × α)) (k : κ) : Option α :=
  (m.find? fun p => decide (p.1 = k)).map Prod.snd

/-- Replacing insert into an association list (the `BTreeMap::insert` model). -/
def alistInsert {κ α : Type} [DecidableEq κ] (m : List (κ × α)) (k : κ) (v : α) :
    List (κ × α) :=
  (k, v) :: m.filter fun p => decide (p.1 ≠ k)

/-- The cause field of an incomplete evaluation
(`IncompleteCause::NonConstantRequiredArgument`). -/
inductive IncompleteCause where
  | nonConstantRequiredArgument (argName : String)
  deriving DecidableEq

/-- Completeness status of an evaluation result. -/
inductive EvalStatus where
  | complete
  | incomplete (cause : IncompleteCause)
  deriving DecidableEq

/-- Modelled from the spec: `EvalValue` (in `witgen/eval_result.rs`, not part of
the given sources) carries the accumulated variable bindings and the
completeness status. -/
structure EvalValue (V F : Type) where
  constraints : List (V × F)
  status : EvalStatus

/-- The write-once memory machine state (`WriteOnceMemory`). -/
structure WriteOnceMemory (F : Type) where
  fixedData : FixedData F
  rhs : SelectedExpressions F
  value_polys : List PolyID
  key_to_index : List (List F × Nat)
  data : List (Nat × List (Option F))

/-- Modelled from the spec: `FixedData::external_witness` reads the external
override for a (row, column) pair; absent when no override column is given or
the column is shorter than the row index. -/
def external_witness {F : Type} (fd : FixedData F) (row : Nat) (column : PolyID) : Option F :=
  (fd.externalValues column).bind fun v => v[row]?

/-- The key tuple of one row, obtained by evaluating the key columns there
(the body of the `try_new` loop). -/
def key_at {F : Type} (fd : FixedData F) (key_polys : List PolyID) (row : Nat) : List F :=
  key_polys.map fun k => fd.fixedCols k row

/-- The `try_new` loop that builds `key_to_index`, returning `none` on a
duplicate key tuple. -/
def insert_keys {F : Type} [DecidableEq F] (fd : FixedData F) (key_polys : List PolyID) :
    List Nat → List (List F × Nat) → Option (List (List F × Nat))
  | [], acc => some acc
  | row :: rest, acc =>
    if (alistLookup acc (key_at fd key_polys row)).isSome then none
    else insert_keys fd key_polys rest (alistInsert acc (key_at fd key_polys row) row)

/-- Result of `try_new`: Rust distinguishes `None` ("not applicable", another
machine variant may be tried) from a panic (a failed `assert!` or an
out-of-bounds index), which aborts; `Some(machine)` is success. -/
inductive TryNewResult (α : Type) where
  | notApplicable
  | panicked
  | success (machine : α)

/-- The fixed-kind references among the simple right-hand side references
(first component of the partition in `try_new`). -/
def key_refs (refs : List AlgebraicReference) : List AlgebraicReference :=
  (refs.partition fun p => p.poly_id.ptype.isConstant).1

/-- The witness-kind references among the simple right-hand side references
(second component of the partition in `try_new`). -/
def value_refs (refs : List AlgebraicReference) : List AlgebraicReference :=
  (refs.partition fun p => p.poly_id.ptype.isConstant).2

/-- The tail of `try_new` after the right-hand side has been resolved into
simple references: the two `assert!(!p.next)` checks (modelled as `panicked`)
followed by building the address table. -/
def try_new_with_refs {F : Type} [DecidableEq F] (fd : FixedData F)
    (rhs : SelectedExpressions F) (rhs_polys : List AlgebraicReference) :
    TryNewResult (WriteOnceMemory F) :=
  if (key_refs rhs_polys).any fun p => p.next then .panicked
  else if (value_refs rhs_polys).any fun p => p.next then .panicked
  else
    match insert_keys fd ((key_refs rhs_polys).map fun p => p.poly_id)
        (List.range fd.degree) [] with
    | none => .notApplicable
    | some key_to_index =>
      .success ⟨fd, rhs, (value_refs rhs_polys).map fun p => p.poly_id, key_to_index, []⟩

/-- The part of `try_new` reached when the connecting identities are nonempty:
the shared-descriptor check, the selector check, and the simple-reference
check, each declining on failure. -/
def try_new_nonempty {F : Type} [DecidableEq F] (fd : FixedData F) (c : Identity F)
    (connecting_identities : List (Identity F)) : TryNewResult (WriteOnceMemory F) :=
  if connecting_identities.all fun i => decide (i.right = c.right) then
    if c.right.selector.isSome then .notApplicable
    else
      match c.right.expressions.mapM try_to_simple_poly with
      | none => .notApplicable
      | some rhs_polys => try_new_with_refs fd c.right rhs_polys
  else .notApplicable

/-- `WriteOnceMemory::try_new`.  Returns `notApplicable` where the Rust code
returns `None`, and `panicked` where it would panic: indexing
`connecting_identities[0]` on an empty list, or the `assert!(!p.next)` on a
key or value reference to the shifted row.  The sequential stages are split
into the named definitions above. -/
def try_new {F : Type} [DecidableEq F] (fd : FixedData F)
    (connecting_identities : List (Identity F)) (identities : List (Identity F)) :
    TryNewResult (WriteOnceMemory F) :=
  if identities.isEmpty then
    match connecting_identities with
    | [] => .panicked
    | c :: _ => try_new_nonempty fd c connecting_identities
  else .notApplicable

/-- The zipped (left-hand affine expression, right-hand expression) pairs of a
request, partitioned into key side and value side. -/
def request_pairs {V F : Type} (left : List (AffineExpression V F))
    (right : SelectedExpressions F) :
    List (AffineExpression V F × Expression F) × List (AffineExpression V F × Expression F) :=
  (left.zip right.expressions).partition fun lr => isConstantRef lr.2

/-- The key-side pairs of a request. -/
def key_expressions {V F : Type} (left : List (AffineExpression V F))
    (right : SelectedExpressions F) : List (AffineExpression V F × Expression F) :=
  (request_pairs left right).1

/-- The value-side left-hand expressions of a request. -/
def value_expressions {V F : Type} (left : List (AffineExpression V F))
    (right : SelectedExpressions F) : List (AffineExpression V F) :=
  (request_pairs left right).2.map Prod.fst

/-- The constant key tuple of a request, if every key-side expression is
constant. -/
def request_key {V F : Type} [Zero F] [DecidableEq F] (left : List (AffineExpression V F))
    (right : SelectedExpressions F) : Option (List F) :=
  (key_expressions left right).mapM fun kr => constant_value kr.1

/-- The external override values for one row, one entry per value column. -/
def external_witness_values {F : Type} (m : WriteOnceMemory F) (index : Nat) :
    List (Option F) :=
  m.value_polys.map fun p => external_witness m.fixedData index p

/-- The per-column source of truth for one row: the external override where
present, else the current memory content (`stored_value` in
`process_plookup_internal`). -/
def stored_value {F : Type} [DecidableEq F] (m : WriteOnceMemory F) (index : Nat) :
    List (Option F) :=
  match alistLookup m.data index with
  | some values => (values.zip (external_witness_values m index)).map fun se => se.2.or se.1
  | none => external_witness_values m index

/-- The per-column reconciliation loop of `process_plookup_internal`: each pair
holds the request's value-side expression and the source-of-truth slot.
Returns the accumulated variable bindings and the reconciled slot vector, or
the first solving error. -/
def reconcile {V F : Type} [Field F] [DecidableEq F] :
    List (AffineExpression V F × Option F) →
    Except String (List (V × F) × List (Option F))
  | [] => .ok ([], [])
  | (l, r) :: rest =>
    match r with
    | some rv =>
      match solve (subConstant l rv) with
      | .error e => .error e
      | .ok bindings =>
        match reconcile rest with
        | .error e => .error e
        | .ok (u, vs) => .ok (bindings ++ u, some rv :: vs)
    | none =>
      match constant_value l with
      | some c =>
        match reconcile rest with
        | .error e => .error e
        | .ok (u, vs) => .ok (u, some c :: vs)
      | none =>
        match reconcile rest with
        | .error e => .error e
        | .ok (u, vs) => .ok (u, none :: vs)

/-- Replacing the memory content of one row (`self.data.insert(index, values)`). -/
def write_values {F : Type} [DecidableEq F] (m : WriteOnceMemory F) (index : Nat)
    (values : List (Option F)) : WriteOnceMemory F :=
  ⟨m.fixedData, m.rhs, m.value_polys, m.key_to_index, alistInsert m.data index values⟩

/-- The tail of `process_plookup_internal` once the address table has resolved
the key to a row index: reconcile, write back, and report completeness. -/
def process_resolved_row {V F : Type} [Field F] [DecidableEq F] (m : WriteOnceMemory F)
    (left : List (AffineExpression V F)) (right : SelectedExpressions F) (index : Nat) :
    Except String (EvalValue V F) × WriteOnceMemory F :=
  match reconcile ((value_expressions left right).zip (stored_value m index)) with
  | .error e => (.error e, m)
  | .ok (updates, values) =>
    if none ∈ values then
      (.ok ⟨updates, .incomplete (.nonConstantRequiredArgument "value")⟩,
        write_values m index values)
    else
      (.ok ⟨updates, .complete⟩, write_values m index values)

/-- The tail of `process_plookup_internal` once the key tuple is known to be
constant: the address-table lookup, fatal when the key is absent. -/
def process_constant_key {V F : Type} [Field F] [DecidableEq F] (m : WriteOnceMemory F)
    (left : List (AffineExpression V F)) (right : SelectedExpressions F) (key : List F) :
    Except String (EvalValue V F) × WriteOnceMemory F :=
  match alistLookup m.key_to_index key with
  | none => (.error "Key not found in write-once memory", m)
  | some index => process_resolved_row m left right index

/-- `WriteOnceMemory::process_plookup_internal`.  The mutation of `self.data`
is modelled by returning the new machine state next to the evaluation result;
the sequential stages of the Rust function are split into the named
definitions above. -/
def process_plookup_internal {V F : Type} [Field F] [DecidableEq F] (m : WriteOnceMemory F)
    (left : List (AffineExpression V F)) (right : SelectedExpressions F) :
    Except String (EvalValue V F) × WriteOnceMemory F :=
  match request_key left right with
  | none => (.ok ⟨[], .incomplete (.nonConstantRequiredArgument "key")⟩, m)
  | some key => process_constant_key m left right key

/-- `Machine::process_plookup`: handle the request only when the descriptor is
this machine's own right-hand side and the identity kind is a lookup. -/
def process_plookup {V F : Type} [Field F] [DecidableEq F] (m : WriteOnceMemory F)
    (kind : IdentityKind) (left : List (AffineExpression V F))
    (right : SelectedExpressions F) :
    Option (Except String (EvalValue V F) × WriteOnceMemory F) :=
  if right = m.rhs ∧ kind = IdentityKind.Plookup then
    some (process_plookup_internal m left right)
  else none

/-- `Vec::resize` on a list: truncate or pad with the default on the right. -/
def resize {F : Type} (l : List F) (n : Nat) (d : F) : List F :=
  l.take n ++ List.replicate (n - l.length) d

/-- The dense column built for one value column without external values:
default every row to zero, then overwrite each row present in the memory with
its slot value, an unset slot defaulting to zero.  Out-of-range indexing is
modelled as a no-op write and a defaulted read; the construction invariant
keeps all indices in range. -/
def build_column {F : Type} [Zero F] (m : WriteOnceMemory F) (value_index : Nat) : List F :=
  m.data.foldl (fun column rv => column.set rv.1 ((rv.2.getD value_index none).getD 0))
    (List.replicate m.fixedData.degree 0)

/-- `Machine::take_witness_col_values`: one dense output column of length
`degree` per value column, from the external values when provided (padded with
zeros), else from the memory content. -/
def take_witness_col_values {F : Type} [Zero F] (m : WriteOnceMemory F) :
    List (String × List F) :=
  m.value_polys.enum.map fun ip =>
    let column := match m.fixedData.externalValues ip.2 with
      | some external_values => resize external_values m.fixedData.degree 0
      | none => build_column m ip.1
    (m.fixedData.columnName ip.2, column)

/-- The memory slot of a row and value-column index, `none` when the row is
absent or the slot unset. -/
def slot {F : Type} [DecidableEq F] (m : WriteOnceMemory F) (row j : Nat) : Option F :=
  ((alistLookup m.data row).bind fun vs => vs[j]?).join

/-- The state invariant linking the memory to the read-only override channel:
every stored row vector has one slot per value column, and a set slot agrees
with the external override whenever one is present.  Every state produced by
`try_new` and `process_plookup_internal` satisfies it. -/
def data_consistent {F : Type} [DecidableEq F] (m : WriteOnceMemory F) : Bool :=
  m.data.all fun p =>
    decide (p.2.length = m.value_polys.length) &&
    (p.2.zip (external_witness_values m p.1)).all fun se =>
      match se.1 with
      | some v => decide (se.2 = none) || decide (se.2 = some v)
      | none => true

/-! Concrete instances over the field with eleven elements, used to evaluate
the development on explicit inputs (the spec's scenario: one key column
enumerating the rows, one value column). -/

instance : Fact (Nat.Prime 11) := ⟨by norm_num⟩

/-- The fixed address column `ADDR`. -/
def keyPoly : PolyID := ⟨0, .Constant⟩

/-- The witness value column `v`. -/
def valPoly : PolyID := ⟨1, .Committed⟩

/-- Reference to the address column on the current row. -/
def keyRef : AlgebraicReference := ⟨keyPoly, false⟩

/-- Reference to the value column on the current row. -/
def valRef : AlgebraicReference := ⟨valPoly, false⟩

/-- Reference to the address column on the shifted row. -/
def keyRefNext : AlgebraicReference := ⟨keyPoly, true⟩

/-- The shared right-hand side `{ADDR, v}`. -/
def rhsEx : SelectedExpressions (ZMod 11) := ⟨none, [.ref keyRef, .ref valRef]⟩

/-- A connecting identity with the shared right-hand side. -/
def idEx : Identity (ZMod 11) := ⟨rhsEx⟩

/-- A right-hand side whose key column references the shifted row. -/
def rhsNext : SelectedExpressions (ZMod 11) := ⟨none, [.ref keyRefNext, .ref valRef]⟩

/-- A connecting identity whose key column references the shifted row. -/
def idNext : Identity (ZMod 11) := ⟨rhsNext⟩

/-- Fixed data of degree four with `ADDR = |i| i` and no external values. -/
def fdEx : FixedData (ZMod 11) :=
  ⟨4, fun _ row => (row : ZMod 11), fun _ => none, fun p => if p.id = 0 then "ADDR" else "v"⟩

/-- Fixed data of degree two whose address column is constantly zero, so the
key tuple repeats across rows. -/
def fdDup : FixedData (ZMod 11) :=
  ⟨2, fun _ _ => 0, fun _ => none, fun _ => "c"⟩

/-- Fixed data of degree four with an external override column `[0,0,9,0]`
for the value column. -/
def fdOvr : FixedData (ZMod 11) :=
  ⟨4, fun _ row => (row : ZMod 11), fun p => if p.id = 1 then some [0, 0, 9, 0] else none,
    fun p => if p.id = 0 then "ADDR" else "v"⟩

/-- The address table for `fdEx`: key tuple `[i]` maps to row `i`. -/
def k2iEx : List (List (ZMod 11) × Nat) := [([0], 0), ([1], 1), ([2], 2), ([3], 3)]

/-- A fresh machine over `fdEx`. -/
def mEx : WriteOnceMemory (ZMod 11) := ⟨fdEx, rhsEx, [valPoly], k2iEx, []⟩

/-- A machine over `fdEx` whose memory already holds value seven at row two. -/
def mEx7 : WriteOnceMemory (ZMod 11) := ⟨fdEx, rhsEx, [valPoly], k2iEx, [(2, [some 7])]⟩

/-- A machine over `fdOvr` whose memory holds four at row two while the
external override there says nine. -/
def mOvr : WriteOnceMemory (ZMod 11) := ⟨fdOvr, rhsEx, [valPoly], k2iEx, [(2, [some 4])]⟩

/-- A constant affine expression. -/
def constE (c : ZMod 11) : AffineExpression Nat (ZMod 11) := ⟨[], c⟩

/-- A single-variable affine expression with coefficient one. -/
def varE (x : Nat) : AffineExpression Nat (ZMod 11) := ⟨[(x, 1)], 0⟩

/-! Helper lemmas about the association-list model. -/

theorem alistLookup_insert_same {κ α : Type} [DecidableEq κ] (m : List (κ × α)) (k : κ)
    (v : α) : alistLookup (alistInsert m k v) k = some v := by
  simp [alistLookup, alistInsert, List.find?]

theorem find?_filter_key {κ α : Type} [DecidableEq κ] (m : List (κ × α)) (k k2 : κ)
    (h : k2 ≠ k) :
    ((m.filter fun p => decide (p.1 ≠ k)).find? fun p => decide (p.1 = k2)) =
      m.find? fun p => decide (p.1 = k2) := by
  induction m with
  | nil => rfl
  | cons a rest ih =>
    rw [List.filter_cons]
    by_cases hak : a.1 = k
    · have h2 : decide (a.1 = k2) = false := decide_eq_false (by rw [hak]; exact fun hh => h hh.symm)
      rw [if_neg (by simp [hak]), ih, List.find?_cons, h2]
    · rw [if_pos (by simp [hak]), List.find?_cons, List.find?_cons]
      by_cases hk2 : a.1 = k2
      · rw [decide_eq_true hk2]
      · rw [decide_eq_false hk2]; exact ih

theorem alistLookup_insert_diff {κ α : Type} [DecidableEq κ] (m : List (κ × α)) (k k2 : κ)
    (v : α) (h : k2 ≠ k) : alistLookup (alistInsert m k v) k2 = alistLookup m k2 := by
  unfold alistLookup alistInsert
  rw [List.find?_cons]
  have h2 : decide ((k, v).1 = k2) = false := decide_eq_false (fun hh => h hh.symm)
  rw [h2]
  exact congrArg (Option.map Prod.snd) (find?_filter_key m k k2 h)

theorem alistLookup_mem {κ α : Type} [DecidableEq κ] (m : List (κ × α)) (k : κ) (v : α)
    (h : alistLookup m k = some v) : (k, v) ∈ m := by
  unfold alistLookup at h
  cases hf : m.find? fun p => decide (p.1 = k) with
  | none => rw [hf] at h; cases h
  | some q =>
    rw [hf] at h
    have hq := List.mem_of_find?_eq_some hf
    have h1 := List.find?_some (p := fun r : κ × α => decide (r.1 = k)) hf
    have hqk : q.1 = k := of_decide_eq_true h1
    have hqv : q.2 = v := by simpa using h
    have : q = (k, v) := Prod.ext hqk hqv
    rwa [this] at hq

theorem alistLookup_isSome_of_mem {κ α : Type} [DecidableEq κ] (m : List (κ × α))
    (p : κ × α) (hp : p ∈ m) : (alistLookup m p.1).isSome := by
  induction m with
  | nil => cases hp
  | cons a rest ih =>
    rcases List.mem_cons.mp hp with rfl | hp2
    · simp [alistLookup, List.find?_cons]
    · by_cases ha : a.1 = p.1
      · simp [alistLookup, List.find?_cons, ha]
      · simpa [alistLookup, List.find?_cons, ha] using ih hp2

theorem alistLookup_none_of_not_mem_keys {κ α : Type} [DecidableEq κ] (m : List (κ × α))
    (k : κ) (h : k ∉ m.map Prod.fst) : alistLookup m k = none := by
  unfold alistLookup
  rw [List.find?_eq_none.mpr]
  · rfl
  · intro p hp hpk
    exact h (of_decide_eq_true hpk ▸ List.mem_map_of_mem Prod.fst hp)

theorem getElem?_zip_some {α β : Type} (a : List α) (b : List β) (i : Nat) (x : α) (y : β)
    (ha : a[i]? = some x) (hb : b[i]? = some y) : (a.zip b)[i]? = some (x, y) := by
  induction a generalizing b i with
  | nil => simp at ha
  | cons a0 at0 ih =>
    cases b with
    | nil => simp at hb
    | cons b0 bt =>
      cases i with
      | zero => simp_all
      | succ n => simpa using ih bt n (by simpa using ha) (by simpa using hb)

/-! Helper lemmas about the reconciliation loop. -/

theorem reconcile_ok_spec {V F : Type} [Field F] [DecidableEq F]
    (pairs : List (AffineExpression V F × Option F)) (u : List (V × F))
    (vals : List (Option F)) (h : reconcile pairs = .ok (u, vals)) :
    vals.length = pairs.length ∧
      ∀ (i : Nat) (l : AffineExpression V F) (rv : F),
        pairs[i]? = some (l, some rv) → vals[i]? = some (some rv) := by
  induction pairs generalizing u vals with
  | nil =>
    simp only [reconcile, Except.ok.injEq, Prod.mk.injEq] at h
    obtain ⟨-, hv⟩ := h
    subst hv
    exact ⟨rfl, by intro i l rv h2; simp at h2⟩
  | cons p rest ih =>
    obtain ⟨l0, r0⟩ := p
    cases r0 with
    | some rv0 =>
      rw [reconcile] at h
      cases hs : solve (subConstant l0 rv0) with
      | error e => rw [hs] at h; cases h
      | ok bindings =>
        rw [hs] at h
        cases hr : reconcile rest with
        | error e => rw [hr] at h; cases h
        | ok uv =>
          obtain ⟨u2, vs⟩ := uv
          rw [hr] at h
          simp only [Except.ok.injEq, Prod.mk.injEq] at h
          obtain ⟨-, hv⟩ := h
          subst hv
          obtain ⟨hlen, hspec⟩ := ih u2 vs hr
          refine ⟨by simp [hlen], ?_⟩
          intro i l rv hpz
          cases i with
          | zero =>
            simp only [List.getElem?_cons_zero, Option.some.injEq, Prod.mk.injEq] at hpz
            obtain ⟨-, h2⟩ := hpz
            subst h2
            simp
          | succ n =>
            simp only [List.getElem?_cons_succ] at hpz ⊢
            exact hspec n l rv hpz
    | none =>
      rw [reconcile] at h
      cases hc : constant_value l0 with
      | some c =>
        rw [hc] at h
        cases hr : reconcile rest with
        | error e => rw [hr] at h; cases h
        | ok uv =>
          obtain ⟨u2, vs⟩ := uv
          rw [hr] at h
          simp only [Except.ok.injEq, Prod.mk.injEq] at h
          obtain ⟨-, hv⟩ := h
          subst hv
          obtain ⟨hlen, hspec⟩ := ih u2 vs hr
          refine ⟨by simp [hlen], ?_⟩
          intro i l rv hpz
          cases i with
          | zero => simp only [List.getElem?_cons_zero, Option.some.injEq, Prod.mk.injEq] at hpz; cases hpz.2
          | succ n =>
            simp only [List.getElem?_cons_succ] at hpz ⊢
            exact hspec n l rv hpz
      | none =>
        rw [hc] at h
        cases hr : reconcile rest with
        | error e => rw [hr] at h; cases h
        | ok uv =>
          obtain ⟨u2, vs⟩ := uv
          rw [hr] at h
          simp only [Except.ok.injEq, Prod.mk.injEq] at h
          obtain ⟨-, hv⟩ := h
          subst hv
          obtain ⟨hlen, hspec⟩ := ih u2 vs hr
          refine ⟨by simp [hlen], ?_⟩
          intro i l rv hpz
          cases i with
          | zero => simp only [List.getElem?_cons_zero, Option.some.injEq, Prod.mk.injEq] at hpz; cases hpz.2
          | succ n =>
            simp only [List.getElem?_cons_succ] at hpz ⊢
            exact hspec n l rv hpz

theorem reconcile_error_iff {V F : Type} [Field F] [DecidableEq F]
    (pairs : List (AffineExpression V F × Option F)) :
    (∃ e, reconcile pairs = .error e) ↔
      ∃ lr ∈ pairs, ∃ rv, lr.2 = some rv ∧ ∃ e, solve (subConstant lr.1 rv) = .error e := by
  induction pairs with
  | nil =>
    constructor
    · rintro ⟨e, he⟩; rw [reconcile] at he; cases he
    · rintro ⟨lr, hmem, -⟩; cases hmem
  | cons p rest ih =>
    obtain ⟨l0, r0⟩ := p
    cases r0 with
    | some rv0 =>
      cases hs : solve (subConstant l0 rv0) with
      | error e =>
        constructor
        · rintro -
          exact ⟨(l0, some rv0), List.mem_cons_self _ _, rv0, rfl, e, hs⟩
        · rintro -
          exact ⟨e, by rw [reconcile, hs]⟩
      | ok bindings =>
        constructor
        · rintro ⟨e, he⟩
          rw [reconcile, hs] at he
          cases hr : reconcile rest with
          | error e2 =>
            obtain ⟨lr, hmem, rv, hrv, e3, hsol⟩ := ih.mp ⟨e2, hr⟩
            exact ⟨lr, List.mem_cons_of_mem _ hmem, rv, hrv, e3, hsol⟩
          | ok uv => rw [hr] at he; obtain ⟨u2, vs⟩ := uv; cases he
        · rintro ⟨lr, hmem, rv, hrv, e3, hsol⟩
          rcases List.mem_cons.mp hmem with rfl | hmem2
          · simp only at hrv hsol
            have hrv2 : rv0 = rv := Option.some.inj hrv
            subst hrv2
            rw [hs] at hsol
            cases hsol
          · obtain ⟨e2, hr⟩ := ih.mpr ⟨lr, hmem2, rv, hrv, e3, hsol⟩
            refine ⟨e2, ?_⟩
            rw [reconcile, hs, hr]
    | none =>
      have hrest : (∃ e, reconcile ((l0, (none : Option F)) :: rest) = .error e) ↔
          ∃ e, reconcile rest = .error e := by
        rw [reconcile]
        cases hc : constant_value l0 with
        | some c =>
          cases hr : reconcile rest with
          | error e => simp [hr]
          | ok uv => obtain ⟨u2, vs⟩ := uv; simp [hr]
        | none =>
          cases hr : reconcile rest with
          | error e => simp [hr]
          | ok uv => obtain ⟨u2, vs⟩ := uv; simp [hr]
      rw [hrest, ih]
      constructor
      · rintro ⟨lr, hmem, rv, hrv, e3, hsol⟩
        exact ⟨lr, List.mem_cons_of_mem _ hmem, rv, hrv, e3, hsol⟩
      · rintro ⟨lr, hmem, rv, hrv, e3, hsol⟩
        rcases List.mem_cons.mp hmem with rfl | hmem2
        · cases hrv
        · exact ⟨lr, hmem2, rv, hrv, e3, hsol⟩

/-! Helper lemmas about the finalizer fold and the construction loop. -/

theorem foldl_set_length {α β : Type} (data : List (Nat × α)) (g : α → β) (col : List β) :
    (data.foldl (fun c rv => c.set rv.1 (g rv.2)) col).length = col.length := by
  induction data generalizing col with
  | nil => rfl
  | cons a rest ih => simp [List.foldl_cons, ih, List.length_set]

theorem foldl_set_getElem {α β : Type} (data : List (Nat × α)) (g : α → β) (col : List β)
    (hnd : (data.map Prod.fst).Nodup) (row : Nat) (hrow : row < col.length) :
    (data.foldl (fun c rv => c.set rv.1 (g rv.2)) col)[row]? =
      match alistLookup data row with
      | some vs => some (g vs)
      | none => col[row]? := by
  induction data generalizing col with
  | nil => simp [alistLookup]
  | cons a rest ih =>
    obtain ⟨k, vs⟩ := a
    rw [List.map_cons, List.nodup_cons] at hnd
    simp only [List.foldl_cons]
    by_cases hk : k = row
    · subst hk
      have hrest : alistLookup rest k = none :=
        alistLookup_none_of_not_mem_keys rest k hnd.1
      have hlook : alistLookup ((k, vs) :: rest) k = some vs := by
        simp [alistLookup, List.find?_cons]
      rw [hlook]
      rw [ih (col.set k (g vs)) hnd.2 (by rw [List.length_set]; exact hrow)]
      rw [hrest]
      rw [List.getElem?_set_self]
      exact hrow
    · have hlook : alistLookup ((k, vs) :: rest) row = alistLookup rest row := by
        simp [alistLookup, List.find?_cons, hk]
      rw [hlook]
      rw [ih (col.set k (g vs)) hnd.2 (by rw [List.length_set]; exact hrow)]
      cases alistLookup rest row with
      | some vs2 => rfl
      | none => exact List.getElem?_set_ne hk

theorem mem_eq_of_map_nodup {α γ : Type} (l : List α) (f : α → γ)
    (h : (l.map f).Nodup) (p q : α) (hp : p ∈ l) (hq : q ∈ l) (he : f p = f q) : p = q := by
  induction l with
  | nil => cases hp
  | cons a rest ih =>
    rw [List.map_cons, List.nodup_cons] at h
    rcases List.mem_cons.mp hp with rfl | hp2
    · rcases List.mem_cons.mp hq with rfl | hq2
      · rfl
      · exact absurd (he ▸ List.mem_map_of_mem f hq2) h.1
    · rcases List.mem_cons.mp hq with rfl | hq2
      · exact absurd (he ▸ List.mem_map_of_mem f hp2) h.1
      · exact ih h.2 hp2 hq2

theorem alistLookup_insert_isSome_mono {κ α : Type} [DecidableEq κ] (m : List (κ × α))
    (k k2 : κ) (v : α) (h : (alistLookup m k2).isSome) :
    (alistLookup (alistInsert m k v) k2).isSome := by
  by_cases hk : k2 = k
  · subst hk; rw [alistLookup_insert_same]; rfl
  · rwa [alistLookup_insert_diff m k k2 v hk]

theorem insert_keys_none_of_lookup {F : Type} [DecidableEq F] (fd : FixedData F)
    (kp : List PolyID) (rows : List Nat) (acc : List (List F × Nat))
    (h : ∃ r ∈ rows, (alistLookup acc (key_at fd kp r)).isSome) :
    insert_keys fd kp rows acc = none := by
  induction rows generalizing acc with
  | nil => obtain ⟨r, hr, -⟩ := h; cases hr
  | cons row rest ih =>
    rw [insert_keys]
    by_cases hl : (alistLookup acc (key_at fd kp row)).isSome
    · rw [if_pos hl]
    · rw [if_neg hl]
      obtain ⟨r, hr, hs⟩ := h
      rcases List.mem_cons.mp hr with rfl | hr2
      · exact absurd hs hl
      · exact ih _ ⟨r, hr2, alistLookup_insert_isSome_mono acc _ _ row hs⟩

theorem insert_keys_none_of_dup {F : Type} [DecidableEq F] (fd : FixedData F)
    (kp : List PolyID) (rows : List Nat) (acc : List (List F × Nat)) (r1 r2 : Nat)
    (h1 : r1 ∈ rows) (h2 : r2 ∈ rows) (hne : r1 ≠ r2)
    (hk : key_at fd kp r1 = key_at fd kp r2) : insert_keys fd kp rows acc = none := by
  induction rows generalizing acc with
  | nil => cases h1
  | cons row rest ih =>
    rw [insert_keys]
    by_cases hl : (alistLookup acc (key_at fd kp row)).isSome
    · rw [if_pos hl]
    · rw [if_neg hl]
      rcases List.mem_cons.mp h1 with rfl | h1r
      · rcases List.mem_cons.mp h2 with rfl | h2r
        · exact absurd rfl hne
        · refine insert_keys_none_of_lookup fd kp rest _ ⟨r2, h2r, ?_⟩
          rw [← hk, alistLookup_insert_same]
          rfl
      · rcases List.mem_cons.mp h2 with rfl | h2r
        · refine insert_keys_none_of_lookup fd kp rest _ ⟨r1, h1r, ?_⟩
          rw [hk, alistLookup_insert_same]
          rfl
        · exact ih _ h1r h2r

theorem insert_keys_nodup {F : Type} [DecidableEq F] (fd : FixedData F)
    (kp : List PolyID) (rows : List Nat) (acc res : List (List F × Nat))
    (hrows : rows.Nodup) (hk : (acc.map Prod.fst).Nodup) (hr : (acc.map Prod.snd).Nodup)
    (hdisj : ∀ r ∈ rows, ∀ p ∈ acc, p.2 ≠ r)
    (h : insert_keys fd kp rows acc = some res) :
    (res.map Prod.fst).Nodup ∧ (res.map Prod.snd).Nodup := by
  induction rows generalizing acc with
  | nil =>
    rw [insert_keys] at h
    cases h
    exact ⟨hk, hr⟩
  | cons row rest ih =>
    rw [insert_keys] at h
    by_cases hl : (alistLookup acc (key_at fd kp row)).isSome
    · rw [if_pos hl] at h; cases h
    · rw [if_neg hl] at h
      rw [List.nodup_cons] at hrows
      have hnotkey : ∀ q ∈ acc, q.1 ≠ key_at fd kp row := by
        intro q hq hqk
        exact hl (hqk ▸ alistLookup_isSome_of_mem acc q hq)
      have hfilt : (acc.filter fun p => decide (p.1 ≠ key_at fd kp row)) = acc :=
        List.filter_eq_self.mpr fun p hp => decide_eq_true (hnotkey p hp)
      rw [alistInsert, hfilt] at h
      refine ih _ hrows.2 ?_ ?_ ?_ h
      · rw [List.map_cons, List.nodup_cons]
        refine ⟨?_, hk⟩
        intro hmem
        obtain ⟨q, hq, hqk⟩ := List.mem_map.mp hmem
        exact hnotkey q hq hqk
      · rw [List.map_cons, List.nodup_cons]
        refine ⟨?_, hr⟩
        intro hmem
        obtain ⟨q, hq, hqr⟩ := List.mem_map.mp hmem
        exact hdisj row (List.mem_cons_self _ _) q hq hqr
      · intro r hrm p hp
        rcases List.mem_cons.mp hp with rfl | hp2
        · intro hcontra
          simp only at hcontra
          exact hrows.1 (hcontra ▸ hrm)
        · exact hdisj r (List.mem_cons_of_mem _ hrm) p hp2

/-! Unfolding lemmas for the stages of `process_plookup_internal`. -/

theorem ppi_key_none {V F : Type} [Field F] [DecidableEq F] (m : WriteOnceMemory F)
    (left : List (AffineExpression V F)) (right : SelectedExpressions F)
    (h : request_key left right = none) :
    process_plookup_internal m left right =
      (.ok ⟨[], .incomplete (.nonConstantRequiredArgument "key")⟩, m) := by
  unfold process_plookup_internal
  rw [h]

theorem ppi_key_some {V F : Type} [Field F] [DecidableEq F] (m : WriteOnceMemory F)
    (left : List (AffineExpression V F)) (right : SelectedExpressions F) (key : List F)
    (h : request_key left right = some key) :
    process_plookup_internal m left right = process_constant_key m left right key := by
  unfold process_plookup_internal
  rw [h]

theorem pck_absent {V F : Type} [Field F] [DecidableEq F] (m : WriteOnceMemory F)
    (left : List (AffineExpression V F)) (right : SelectedExpressions F) (key : List F)
    (h : alistLookup m.key_to_index key = none) :
    process_constant_key m left right key =
      (.error "Key not found in write-once memory", m) := by
  unfold process_constant_key
  rw [h]

theorem pck_found {V F : Type} [Field F] [DecidableEq F] (m : WriteOnceMemory F)
    (left : List (AffineExpression V F)) (right : SelectedExpressions F) (key : List F)
    (index : Nat) (h : alistLookup m.key_to_index key = some index) :
    process_constant_key m left right key = process_resolved_row m left right index := by
  unfold process_constant_key
  rw [h]

theorem prr_rec_error {V F : Type} [Field F] [DecidableEq F] (m : WriteOnceMemory F)
    (left : List (AffineExpression V F)) (right : SelectedExpressions F) (index : Nat)
    (e : String)
    (h : reconcile ((value_expressions left right).zip (stored_value m index)) = .error e) :
    process_resolved_row m left right index = (.error e, m) := by
  unfold process_resolved_row
  rw [h]

theorem prr_rec_ok {V F : Type} [Field F] [DecidableEq F] (m : WriteOnceMemory F)
    (left : List (AffineExpression V F)) (right : SelectedExpressions F) (index : Nat)
    (updates : List (V × F)) (values : List (Option F))
    (h : reconcile ((value_expressions left right).zip (stored_value m index)) =
      .ok (updates, values)) :
    process_resolved_row m left right index =
      if none ∈ values then
        (.ok ⟨updates, .incomplete (.nonConstantRequiredArgument "value")⟩,
          write_values m index values)
      else
        (.ok ⟨updates, .complete⟩, write_values m index values) := by
  unfold process_resolved_row
  rw [h]

/-- C5: if any key-side expression of a request is not constant, the processor
returns incomplete with cause "non-constant key", emits no updates, and leaves
the memory store completely unchanged. -/
theorem c5_non_constant_key {V F : Type} [Field F] [DecidableEq F] (m : WriteOnceMemory F)
    (left : List (AffineExpression V F)) (right : SelectedExpressions F)
    (h : request_key left right = none) :
    process_plookup_internal m left right =
      (.ok ⟨[], .incomplete (.nonConstantRequiredArgument "key")⟩, m) := by
  unfold process_plookup_internal
  rw [h]

/-- C9: whenever the processor returns a fatal error, the memory store is left
exactly as it was before the request. -/
theorem c9_error_atomicity {V F : Type} [Field F] [DecidableEq F] (m : WriteOnceMemory F)
    (left : List (AffineExpression V F)) (right : SelectedExpressions F) (e : String)
    (h : (process_plookup_internal m left right).1 = .error e) :
    (process_plookup_internal m left right).2 = m := by
  cases hkey : request_key left right with
  | none => rw [ppi_key_none m left right hkey]
  | some key =>
    rw [ppi_key_some m left right key hkey] at h ⊢
    cases hidx : alistLookup m.key_to_index key with
    | none => rw [pck_absent m left right key hidx]
    | some index =>
      rw [pck_found m left right key index hidx] at h ⊢
      cases hrec : reconcile ((value_expressions left right).zip (stored_value m index)) with
      | error e2 => rw [prr_rec_error m left right index e2 hrec]
      | ok uv =>
        obtain ⟨updates, values⟩ := uv
        rw [prr_rec_ok m left right index updates values hrec] at h
        by_cases hc : none ∈ values
        · rw [if_pos hc] at h; cases h
        · rw [if_neg hc] at h; cases h

/-- C10: `try_new` reads the first connecting identity without checking
emptiness, so with no connecting identities and no other attributed identities
it panics instead of returning "not applicable". -/
theorem c10_empty_connecting_panics {F : Type} [DecidableEq F] (fd : FixedData F) :
    try_new fd ([] : List (Identity F)) ([] : List (Identity F)) = .panicked := rfl

/-- C4: the processor returns a fatal error exactly when the key tuple is
constant and either absent from the address table, or present with some
value-side reconciliation equation (request expression minus the known
source-of-truth value) unsolvable. -/
theorem c4_fatal_error_iff {V F : Type} [Field F] [DecidableEq F] (m : WriteOnceMemory F)
    (left : List (AffineExpression V F)) (right : SelectedExpressions F) :
    (∃ e, (process_plookup_internal m left right).1 = .error e) ↔
      ∃ key, request_key left right = some key ∧
        (alistLookup m.key_to_index key = none ∨
          ∃ index, alistLookup m.key_to_index key = some index ∧
            ∃ lr ∈ (value_expressions left right).zip (stored_value m index),
              ∃ rv, lr.2 = some rv ∧ ∃ e, solve (subConstant lr.1 rv) = .error e) := by
  cases hkey : request_key left right with
  | none =>
    rw [ppi_key_none m left right hkey]
    constructor
    · rintro ⟨e, he⟩; cases he
    · rintro ⟨key, hks, -⟩; cases hks
  | some key0 =>
    rw [ppi_key_some m left right key0 hkey]
    cases hidx : alistLookup m.key_to_index key0 with
    | none =>
      rw [pck_absent m left right key0 hidx]
      constructor
      · intro _; exact ⟨key0, rfl, Or.inl hidx⟩
      · intro _; exact ⟨"Key not found in write-once memory", rfl⟩
    | some index =>
      rw [pck_found m left right key0 index hidx]
      cases hrec : reconcile ((value_expressions left right).zip (stored_value m index)) with
      | error e0 =>
        rw [prr_rec_error m left right index e0 hrec]
        constructor
        · intro _
          obtain ⟨lr, hmem, rv, hrv, e3, hsol⟩ := (reconcile_error_iff _).mp ⟨e0, hrec⟩
          exact ⟨key0, rfl, Or.inr ⟨index, hidx, lr, hmem, rv, hrv, e3, hsol⟩⟩
        · intro _; exact ⟨e0, rfl⟩
      | ok uv =>
        obtain ⟨updates, values⟩ := uv
        rw [prr_rec_ok m left right index updates values hrec]
        constructor
        · rintro ⟨e, he⟩
          by_cases hc : none ∈ values
          · rw [if_pos hc] at he; cases he
          · rw [if_neg hc] at he; cases he
        · rintro ⟨key, hks, hrest⟩
          have hkk : key = key0 := (Option.some.inj hks).symm
          subst hkk
          rcases hrest with habs | ⟨index2, hidx2, lr, hmem, rv, hrv, e3, hsol⟩
          · rw [hidx] at habs; cases habs
          · rw [hidx] at hidx2
            have hii : index2 = index := (Option.some.inj hidx2).symm
            subst hii
            obtain ⟨e4, he4⟩ := (reconcile_error_iff _).mpr ⟨lr, hmem, rv, hrv, e3, hsol⟩
            rw [hrec] at he4
            cases he4

/-- C2: for a request whose constant key resolves to a row, a successful
(non-fatal) run returns exactly the bindings accumulated by reconciliation,
stores the reconciled vector at that row, is complete iff every slot of that
vector is known, and otherwise is incomplete with cause "non-constant value". -/
theorem c2_completeness_protocol {V F : Type} [Field F] [DecidableEq F]
    (m m2 : WriteOnceMemory F) (left : List (AffineExpression V F))
    (right : SelectedExpressions F) (key : List F) (index : Nat) (ev : EvalValue V F)
    (hkey : request_key left right = some key)
    (hidx : alistLookup m.key_to_index key = some index)
    (hok : process_plookup_internal m left right = (.ok ev, m2)) :
    ∃ updates values,
      reconcile ((value_expressions left right).zip (stored_value m index)) =
        .ok (updates, values) ∧
      ev.constraints = updates ∧
      alistLookup m2.data index = some values ∧
      (ev.status = .complete ↔ ∀ s ∈ values, s ≠ none) ∧
      (ev.status ≠ .complete →
        ev.status = .incomplete (.nonConstantRequiredArgument "value")) := by
  rw [ppi_key_some m left right key hkey, pck_found m left right key index hidx] at hok
  cases hrec : reconcile ((value_expressions left right).zip (stored_value m index)) with
  | error e => rw [prr_rec_error m left right index e hrec] at hok; simp at hok
  | ok uv =>
    obtain ⟨updates, values⟩ := uv
    rw [prr_rec_ok m left right index updates values hrec] at hok
    by_cases hc : none ∈ values
    · rw [if_pos hc] at hok
      have hev : ev = ⟨updates, .incomplete (.nonConstantRequiredArgument "value")⟩ := by
        have := congrArg Prod.fst hok
        simpa using this.symm
      have hm2 : m2 = write_values m index values := (congrArg Prod.snd hok).symm
      subst hev
      subst hm2
      refine ⟨updates, values, rfl, rfl, ?_, ?_, fun _ => rfl⟩
      · exact alistLookup_insert_same m.data index values
      · constructor
        · intro h2; cases h2
        · intro hall; exact absurd rfl (hall none hc)
    · rw [if_neg hc] at hok
      have hev : ev = ⟨updates, .complete⟩ := by
        have := congrArg Prod.fst hok
        simpa using this.symm
      have hm2 : m2 = write_values m index values := (congrArg Prod.snd hok).symm
      subst hev
      subst hm2
      refine ⟨updates, values, rfl, rfl, ?_, ?_, fun h2 => absurd rfl h2⟩
      · exact alistLookup_insert_same m.data index values
      · exact ⟨fun _ s hs hsn => hc (hsn ▸ hs), fun _ => rfl⟩

/-- C1: under the state invariant (slots sized to the value columns and
agreeing with any external override), a request that returns successfully
never replaces a set memory slot with a different value: every slot that was
set before the request holds the same value afterwards. -/
theorem c1_write_once_preserved {V F : Type} [Field F] [DecidableEq F]
    (m m2 : WriteOnceMemory F) (left : List (AffineExpression V F))
    (right : SelectedExpressions F) (ev : EvalValue V F)
    (hcons : data_consistent m = true)
    (hvlen : (value_expressions left right).length = m.value_polys.length)
    (hok : process_plookup_internal m left right = (.ok ev, m2)) :
    ∀ (row j : Nat) (v : F), slot m row j = some v → slot m2 row j = some v := by
  cases hkey : request_key left right with
  | none =>
    rw [ppi_key_none m left right hkey] at hok
    have hm2 : m = m2 := congrArg Prod.snd hok
    intro row j v h
    rw [← hm2]
    exact h
  | some key =>
    rw [ppi_key_some m left right key hkey] at hok
    cases hidx : alistLookup m.key_to_index key with
    | none => rw [pck_absent m left right key hidx] at hok; simp at hok
    | some index =>
      rw [pck_found m left right key index hidx] at hok
      cases hrec : reconcile ((value_expressions left right).zip (stored_value m index)) with
      | error e => rw [prr_rec_error m left right index e hrec] at hok; simp at hok
      | ok uv =>
        obtain ⟨updates, values⟩ := uv
        rw [prr_rec_ok m left right index updates values hrec] at hok
        have hm2 : m2 = write_values m index values := by
          by_cases hc : none ∈ values
          · rw [if_pos hc] at hok; exact (congrArg Prod.snd hok).symm
          · rw [if_neg hc] at hok; exact (congrArg Prod.snd hok).symm
        subst hm2
        intro row j v hslot
        by_cases hrow : row = index
        · subst hrow
          unfold slot at hslot
          cases hdata : alistLookup m.data row with
          | none => rw [hdata] at hslot; simp at hslot
          | some vs =>
            rw [hdata] at hslot
            have hvsj : vs[j]? = some (some v) := by
              rw [← Option.join_eq_some]
              simpa using hslot
            have hmem : (row, vs) ∈ m.data := alistLookup_mem m.data row vs hdata
            rw [data_consistent, List.all_eq_true] at hcons
            have hp := hcons (row, vs) hmem
            obtain ⟨hl, hall⟩ := (Bool.and_eq_true _ _).mp hp
            have hlen : vs.length = m.value_polys.length := of_decide_eq_true hl
            have hj : j < vs.length := by
              by_contra hge
              push_neg at hge
              rw [List.getElem?_eq_none hge] at hvsj
              cases hvsj
            have hextlen : (external_witness_values m row).length = m.value_polys.length := by
              simp [external_witness_values]
            have hjext : j < (external_witness_values m row).length := by
              rw [hextlen, ← hlen]; exact hj
            obtain ⟨e, he⟩ : ∃ e, (external_witness_values m row)[j]? = some e :=
              ⟨_, List.getElem?_eq_getElem hjext⟩
            have hzipj := getElem?_zip_some vs (external_witness_values m row) j (some v) e hvsj he
            have hpairmem : ((some v : Option F), e) ∈ vs.zip (external_witness_values m row) :=
              List.getElem?_mem hzipj
            rw [List.all_eq_true] at hall
            have hse := hall _ hpairmem
            simp only at hse
            have he2 : e = none ∨ e = some v := by
              rcases (Bool.or_eq_true _ _).mp hse with h1 | h1
              · exact Or.inl (of_decide_eq_true h1)
              · exact Or.inr (of_decide_eq_true h1)
            have hst : (stored_value m row)[j]? = some (some v) := by
              rw [stored_value, hdata, List.getElem?_map, hzipj]
              rcases he2 with rfl | rfl <;> rfl
            have hjv : j < (value_expressions left right).length := by
              rw [hvlen, ← hlen]; exact hj
            obtain ⟨lj, hlj⟩ : ∃ x, (value_expressions left right)[j]? = some x :=
              ⟨_, List.getElem?_eq_getElem hjv⟩
            have hpz := getElem?_zip_some _ _ j lj (some v) hlj hst
            obtain ⟨-, hspec⟩ := reconcile_ok_spec _ updates values hrec
            have hvals : values[j]? = some (some v) := hspec j lj v hpz
            simp only [slot, write_values]
            rw [alistLookup_insert_same]
            simp [hvals]
        · unfold slot at hslot ⊢
          simp only [write_values]
          rw [alistLookup_insert_diff m.data index row values hrow]
          exact hslot

/-- C3: an external override present for a (row, value-column) pair is the
source of truth during reconciliation — even when the memory store holds
something else or nothing — so a successful request leaves the override value
in the slot, and the finalizer's output column carries the override value at
that row. -/
theorem c3_external_override_wins {V F : Type} [Field F] [DecidableEq F]
    (m m2 : WriteOnceMemory F) (left : List (AffineExpression V F))
    (right : SelectedExpressions F) (key : List F) (index j : Nat) (poly : PolyID)
    (w : F) (ev : EvalValue V F)
    (hlenrow : ∀ p ∈ m.data, (p.2 : List (Option F)).length = m.value_polys.length)
    (hvlen : (value_expressions left right).length = m.value_polys.length)
    (hpoly : m.value_polys[j]? = some poly)
    (hext : external_witness m.fixedData index poly = some w)
    (hkey : request_key left right = some key)
    (hidx : alistLookup m.key_to_index key = some index)
    (hok : process_plookup_internal m left right = (.ok ev, m2)) :
    (stored_value m index)[j]? = some (some w) ∧
    slot m2 index j = some w ∧
    (index < m.fixedData.degree →
      ∃ col, (take_witness_col_values m)[j]? = some (m.fixedData.columnName poly, col) ∧
        col[index]? = some w) := by
  have hjp : j < m.value_polys.length := by
    by_contra hge
    push_neg at hge
    rw [List.getElem?_eq_none hge] at hpoly
    cases hpoly
  have hextj : (external_witness_values m index)[j]? = some (some w) := by
    rw [external_witness_values, List.getElem?_map, hpoly]
    simp [hext]
  have hstored : (stored_value m index)[j]? = some (some w) := by
    rw [stored_value]
    cases hdata : alistLookup m.data index with
    | none => exact hextj
    | some vs =>
      have hmem := alistLookup_mem m.data index vs hdata
      have hlen : vs.length = m.value_polys.length := hlenrow (index, vs) hmem
      have hj2 : j < vs.length := by rw [hlen]; exact hjp
      obtain ⟨s, hs⟩ : ∃ s, vs[j]? = some s := ⟨_, List.getElem?_eq_getElem hj2⟩
      have hz := getElem?_zip_some vs (external_witness_values m index) j s (some w) hs hextj
      rw [List.getElem?_map, hz]
      rfl
  refine ⟨hstored, ?_, ?_⟩
  · rw [ppi_key_some m left right key hkey, pck_found m left right key index hidx] at hok
    cases hrec : reconcile ((value_expressions left right).zip (stored_value m index)) with
    | error e => rw [prr_rec_error m left right index e hrec] at hok; simp at hok
    | ok uv =>
      obtain ⟨updates, values⟩ := uv
      rw [prr_rec_ok m left right index updates values hrec] at hok
      have hm2 : m2 = write_values m index values := by
        by_cases hc : none ∈ values
        · rw [if_pos hc] at hok; exact (congrArg Prod.snd hok).symm
        · rw [if_neg hc] at hok; exact (congrArg Prod.snd hok).symm
      subst hm2
      have hjv : j < (value_expressions left right).length := by rw [hvlen]; exact hjp
      obtain ⟨lj, hlj⟩ : ∃ x, (value_expressions left right)[j]? = some x :=
        ⟨_, List.getElem?_eq_getElem hjv⟩
      have hpz := getElem?_zip_some _ _ j lj (some w) hlj hstored
      obtain ⟨-, hspec⟩ := reconcile_ok_spec _ updates values hrec
      have hvals : values[j]? = some (some w) := hspec j lj w hpz
      simp only [slot, write_values]
      rw [alistLookup_insert_same]
      simp [hvals]
  · intro hdeg
    obtain ⟨ev2, hev2, hev2j⟩ : ∃ ev2, m.fixedData.externalValues poly = some ev2 ∧
        ev2[index]? = some w := by
      rw [external_witness] at hext
      exact Option.bind_eq_some.mp hext
    refine ⟨resize ev2 m.fixedData.degree 0, ?_, ?_⟩
    · rw [take_witness_col_values, List.getElem?_map]
      rw [show m.value_polys.enum[j]? = some (j, poly) from by simp [List.getElem?_enum, hpoly]]
      simp [hev2]
    · rw [resize]
      have hlt : index < ev2.length := by
        by_contra hge
        push_neg at hge
        rw [List.getElem?_eq_none hge] at hev2j
        cases hev2j
      have htake : index < (ev2.take m.fixedData.degree).length := by
        simp only [List.length_take]
        omega
      rw [List.getElem?_append, if_pos htake, List.getElem?_take, if_pos hdeg]
      exact hev2j

/-- C6: for a value column without external values, the finalizer produces a
dense column of length `degree`: each row present in the memory store yields
its slot value (an unset slot defaulting to zero), every absent row yields
zero. -/
theorem c6_finalizer_dense_column {F : Type} [Field F] [DecidableEq F]
    (m : WriteOnceMemory F) (i : Nat) (poly : PolyID)
    (hnd : (m.data.map Prod.fst).Nodup)
    (hi : m.value_polys[i]? = some poly)
    (hev : m.fixedData.externalValues poly = none) :
    ∃ col, (take_witness_col_values m)[i]? = some (m.fixedData.columnName poly, col) ∧
      col.length = m.fixedData.degree ∧
      ∀ row, row < m.fixedData.degree →
        col[row]? =
          some (((alistLookup m.data row).map fun vs => (vs.getD i none).getD 0).getD 0) := by
  refine ⟨build_column m i, ?_, ?_, ?_⟩
  · rw [take_witness_col_values, List.getElem?_map]
    rw [show m.value_polys.enum[i]? = some (i, poly) from by simp [List.getElem?_enum, hi]]
    simp [hev]
  · rw [build_column, foldl_set_length m.data (fun vs => (vs.getD i none).getD (0 : F))
      (List.replicate m.fixedData.degree 0)]
    simp
  · intro row hrow
    rw [build_column]
    rw [foldl_set_getElem m.data (fun vs => (vs.getD i none).getD (0 : F))
      (List.replicate m.fixedData.degree 0) hnd row (by simpa using hrow)]
    cases hd : alistLookup m.data row with
    | some vs => rfl
    | none => simp [List.getElem?_replicate, hrow]

/-! Unfolding lemmas for the stages of `try_new`. -/

theorem try_new_cons {F : Type} [DecidableEq F] (fd : FixedData F) (c : Identity F)
    (cs : List (Identity F)) :
    try_new fd (c :: cs) ([] : List (Identity F)) = try_new_nonempty fd c (c :: cs) := rfl

theorem tnn_checked {F : Type} [DecidableEq F] (fd : FixedData F) (c : Identity F)
    (conn : List (Identity F)) (refs : List AlgebraicReference)
    (hsame : conn.all (fun i => decide (i.right = c.right)) = true)
    (hsel : c.right.selector = none)
    (hrefs : c.right.expressions.mapM try_to_simple_poly = some refs) :
    try_new_nonempty fd c conn = try_new_with_refs fd c.right refs := by
  unfold try_new_nonempty
  rw [if_pos hsame, if_neg (by simp [hsel]), hrefs]

theorem tnwr_key_next_panics {F : Type} [DecidableEq F] (fd : FixedData F)
    (rhs : SelectedExpressions F) (refs : List AlgebraicReference)
    (h : (key_refs refs).any (fun p => p.next) = true) :
    try_new_with_refs fd rhs refs = .panicked := by
  unfold try_new_with_refs
  rw [if_pos h]

theorem tnwr_no_next {F : Type} [DecidableEq F] (fd : FixedData F)
    (rhs : SelectedExpressions F) (refs : List AlgebraicReference)
    (hk : (key_refs refs).any (fun p => p.next) = false)
    (hv : (value_refs refs).any (fun p => p.next) = false) :
    try_new_with_refs fd rhs refs =
      match insert_keys fd ((key_refs refs).map fun p => p.poly_id)
          (List.range fd.degree) [] with
      | none => .notApplicable
      | some key_to_index =>
        .success ⟨fd, rhs, (value_refs refs).map fun p => p.poly_id, key_to_index, []⟩ := by
  unfold try_new_with_refs
  rw [if_neg (by simp [hk]), if_neg (by simp [hv])]

theorem key_refs_no_next (refs : List AlgebraicReference)
    (hnext : refs.all (fun r => !r.next) = true) :
    (key_refs refs).any (fun p => p.next) = false := by
  rw [List.any_eq_false]
  intro x hx
  have hxr : x ∈ refs := by
    rw [key_refs, List.partition_eq_filter_filter] at hx
    exact List.mem_of_mem_filter hx
  have h2 := List.all_eq_true.mp hnext x hxr
  simp only [Bool.not_eq_eq_eq_not, Bool.not_true] at h2
  simp [h2]

theorem value_refs_no_next (refs : List AlgebraicReference)
    (hnext : refs.all (fun r => !r.next) = true) :
    (value_refs refs).any (fun p => p.next) = false := by
  rw [List.any_eq_false]
  intro x hx
  have hxr : x ∈ refs := by
    rw [value_refs, List.partition_eq_filter_filter] at hx
    exact List.mem_of_mem_filter hx
  have h2 := List.all_eq_true.mp hnext x hxr
  simp only [Bool.not_eq_eq_eq_not, Bool.not_true] at h2
  simp [h2]

/-- C7: for a candidate passing the structural checks (no extra identities,
shared selector-free right-hand side of simple references, no shifted
references), a key tuple repeating across two distinct rows makes construction
return "not applicable", and a successfully built address table is injective
in both directions between key tuples and row indices. -/
theorem c7_injective_address_table {F : Type} [DecidableEq F] (fd : FixedData F)
    (conn ids : List (Identity F)) (c : Identity F) (cs : List (Identity F))
    (refs : List AlgebraicReference)
    (hids : ids = []) (hconn : conn = c :: cs)
    (hsame : conn.all (fun i => decide (i.right = c.right)) = true)
    (hsel : c.right.selector = none)
    (hrefs : c.right.expressions.mapM try_to_simple_poly = some refs)
    (hnext : refs.all (fun r => !r.next) = true) :
    ((∃ r1 r2, r1 < fd.degree ∧ r2 < fd.degree ∧ r1 ≠ r2 ∧
        key_at fd ((key_refs refs).map fun p => p.poly_id) r1 =
          key_at fd ((key_refs refs).map fun p => p.poly_id) r2) →
      try_new fd conn ids = .notApplicable) ∧
    ∀ a, try_new fd conn ids = .success a →
      ∀ p ∈ a.key_to_index, ∀ q ∈ a.key_to_index,
        (p.2 = q.2 → p.1 = q.1) ∧ (p.1 = q.1 → p.2 = q.2) := by
  subst hids
  subst hconn
  have htn : try_new fd (c :: cs) [] = try_new_with_refs fd c.right refs := by
    rw [try_new_cons fd c cs, tnn_checked fd c (c :: cs) refs hsame hsel hrefs]
  have hknn := key_refs_no_next refs hnext
  have hvnn := value_refs_no_next refs hnext
  rw [htn, tnwr_no_next fd c.right refs hknn hvnn]
  constructor
  · rintro ⟨r1, r2, h1, h2, hne, hkk⟩
    rw [insert_keys_none_of_dup fd ((key_refs refs).map fun p => p.poly_id)
      (List.range fd.degree) [] r1 r2 (List.mem_range.mpr h1) (List.mem_range.mpr h2) hne hkk]
  · intro a hsucc
    cases hik : insert_keys fd ((key_refs refs).map fun p => p.poly_id)
        (List.range fd.degree) [] with
    | none => rw [hik] at hsucc; cases hsucc
    | some res =>
      rw [hik] at hsucc
      obtain ⟨hks, hrs⟩ := insert_keys_nodup fd ((key_refs refs).map fun p => p.poly_id)
        (List.range fd.degree) [] res (List.nodup_range fd.degree) (by simp) (by simp)
        (by simp) hik
      have hsucc2 : TryNewResult.success
          (⟨fd, c.right, (value_refs refs).map fun p => p.poly_id, res, []⟩ :
            WriteOnceMemory F) = .success a := hsucc
      injection hsucc2 with hmach
      subst hmach
      intro p hp q hq
      refine ⟨fun hpq => ?_, fun hpq => ?_⟩
      · exact congrArg Prod.fst (mem_eq_of_map_nodup res Prod.snd hrs p q hp hq hpq)
      · exact congrArg Prod.snd (mem_eq_of_map_nodup res Prod.fst hks p q hp hq hpq)

/-- C8 (amended): when a key column of an otherwise acceptable candidate
references the shifted row, construction panics on the assertion — it does
not return "not applicable". -/
theorem c8_shifted_key_panics {F : Type} [DecidableEq F] (fd : FixedData F)
    (conn ids : List (Identity F)) (c : Identity F) (cs : List (Identity F))
    (refs : List AlgebraicReference)
    (hids : ids = []) (hconn : conn = c :: cs)
    (hsame : conn.all (fun i => decide (i.right = c.right)) = true)
    (hsel : c.right.selector = none)
    (hrefs : c.right.expressions.mapM try_to_simple_poly = some refs)
    (hkeynext : (key_refs refs).any (fun p => p.next) = true) :
    try_new fd conn ids = .panicked := by
  subst hids
  subst hconn
  rw [try_new_cons fd c cs, tnn_checked fd c (c :: cs) refs hsame hsel hrefs,
    tnwr_key_next_panics fd c.right refs hkeynext]

/-- C8 counterexample: a concrete candidate whose key column references the
shifted row makes `try_new` panic on the assertion, refuting the claim that
construction returns "not applicable" there. -/
theorem c8_counterexample :
    try_new fdDup [idNext] ([] : List (Identity (ZMod 11))) = .panicked ∧
    try_new fdDup [idNext] ([] : List (Identity (ZMod 11))) ≠ .notApplicable := by
  constructor
  · rfl
  · intro h
    rw [show try_new fdDup [idNext] ([] : List (Identity (ZMod 11))) = .panicked from rfl] at h
    cases h

/-! The state invariant `data_consistent` holds for every reachable state:
it holds after construction and is preserved by every successful request. -/

theorem getElem?_zip_inv {α β : Type} (a : List α) (b : List β) (i : Nat) (x : α) (y : β)
    (h : (a.zip b)[i]? = some (x, y)) : a[i]? = some x ∧ b[i]? = some y := by
  induction a generalizing b i with
  | nil => simp at h
  | cons a0 at0 ih =>
    cases b with
    | nil => simp at h
    | cons b0 bt =>
      cases i with
      | zero =>
        simp only [List.zip_cons_cons, List.getElem?_cons_zero, Option.some.injEq,
          Prod.mk.injEq] at h
        simp [h.1, h.2]
      | succ n =>
        simp only [List.zip_cons_cons, List.getElem?_cons_succ] at h ⊢
        exact ih bt n h

theorem reconcile_ok_source {V F : Type} [Field F] [DecidableEq F]
    (pairs : List (AffineExpression V F × Option F)) (u : List (V × F))
    (vals : List (Option F)) (h : reconcile pairs = .ok (u, vals)) :
    ∀ (j : Nat) (s : Option F), vals[j]? = some s →
      ∃ l r, pairs[j]? = some (l, r) ∧ (r = s ∨ r = none) := by
  induction pairs generalizing u vals with
  | nil =>
    simp only [reconcile, Except.ok.injEq, Prod.mk.injEq] at h
    obtain ⟨-, hv⟩ := h
    subst hv
    intro j s hj
    simp at hj
  | cons p rest ih =>
    obtain ⟨l0, r0⟩ := p
    cases r0 with
    | some rv0 =>
      rw [reconcile] at h
      cases hs : solve (subConstant l0 rv0) with
      | error e => rw [hs] at h; cases h
      | ok bindings =>
        rw [hs] at h
        cases hr : reconcile rest with
        | error e => rw [hr] at h; cases h
        | ok uv =>
          obtain ⟨u2, vs⟩ := uv
          rw [hr] at h
          simp only [Except.ok.injEq, Prod.mk.injEq] at h
          obtain ⟨-, hv⟩ := h
          subst hv
          intro j s hj
          cases j with
          | zero =>
            simp only [List.getElem?_cons_zero, Option.some.injEq] at hj
            exact ⟨l0, some rv0, by simp, Or.inl hj⟩
          | succ n =>
            simp only [List.getElem?_cons_succ] at hj ⊢
            exact ih u2 vs hr n s hj
    | none =>
      rw [reconcile] at h
      cases hc : constant_value l0 with
      | some c0 =>
        rw [hc] at h
        cases hr : reconcile rest with
        | error e => rw [hr] at h; cases h
        | ok uv =>
          obtain ⟨u2, vs⟩ := uv
          rw [hr] at h
          simp only [Except.ok.injEq, Prod.mk.injEq] at h
          obtain ⟨-, hv⟩ := h
          subst hv
          intro j s hj
          cases j with
          | zero => exact ⟨l0, none, by simp, Or.inr rfl⟩
          | succ n =>
            simp only [List.getElem?_cons_succ] at hj ⊢
            exact ih u2 vs hr n s hj
      | none =>
        rw [hc] at h
        cases hr : reconcile rest with
        | error e => rw [hr] at h; cases h
        | ok uv =>
          obtain ⟨u2, vs⟩ := uv
          rw [hr] at h
          simp only [Except.ok.injEq, Prod.mk.injEq] at h
          obtain ⟨-, hv⟩ := h
          subst hv
          intro j s hj
          cases j with
          | zero => exact ⟨l0, none, by simp, Or.inr rfl⟩
          | succ n =>
            simp only [List.getElem?_cons_succ] at hj ⊢
            exact ih u2 vs hr n s hj

theorem stored_value_length {F : Type} [DecidableEq F] (m : WriteOnceMemory F) (index : Nat)
    (hlenrow : ∀ p ∈ m.data, (p.2 : List (Option F)).length = m.value_polys.length) :
    (stored_value m index).length = m.value_polys.length := by
  rw [stored_value]
  cases hd : alistLookup m.data index with
  | none => simp [external_witness_values]
  | some vs =>
    have hmem := alistLookup_mem m.data index vs hd
    have hlen := hlenrow (index, vs) hmem
    simp [external_witness_values, hlen]

theorem stored_value_ext {F : Type} [DecidableEq F] (m : WriteOnceMemory F)
    (index j : Nat) (e : Option F)
    (hlenrow : ∀ p ∈ m.data, (p.2 : List (Option F)).length = m.value_polys.length)
    (hj : (external_witness_values m index)[j]? = some e) :
    ∃ s, (stored_value m index)[j]? = some s ∧ (e = none ∨ s = e) := by
  rw [stored_value]
  cases hd : alistLookup m.data index with
  | none => exact ⟨e, hj, Or.inr rfl⟩
  | some vs =>
    have hmem := alistLookup_mem m.data index vs hd
    have hlen : vs.length = m.value_polys.length := hlenrow (index, vs) hmem
    have hjlt : j < (external_witness_values m index).length := by
      by_contra hge
      push_neg at hge
      rw [List.getElem?_eq_none hge] at hj
      cases hj
    have hjv : j < vs.length := by
      have : (external_witness_values m index).length = m.value_polys.length := by
        simp [external_witness_values]
      omega
    obtain ⟨x, hx⟩ : ∃ x, vs[j]? = some x := ⟨_, List.getElem?_eq_getElem hjv⟩
    have hz := getElem?_zip_some vs (external_witness_values m index) j x e hx hj
    refine ⟨e.or x, ?_, ?_⟩
    · rw [List.getElem?_map, hz]
      rfl
    · cases e with
      | none => exact Or.inl rfl
      | some w => exact Or.inr rfl

theorem process_preserves_data_consistent {V F : Type} [Field F] [DecidableEq F]
    (m m2 : WriteOnceMemory F) (left : List (AffineExpression V F))
    (right : SelectedExpressions F) (ev : EvalValue V F)
    (hcons : data_consistent m = true)
    (hvlen : (value_expressions left right).length = m.value_polys.length)
    (hok : process_plookup_internal m left right = (.ok ev, m2)) :
    data_consistent m2 = true := by
  have hlenrow : ∀ p ∈ m.data, (p.2 : List (Option F)).length = m.value_polys.length := by
    intro p hp
    rw [data_consistent, List.all_eq_true] at hcons
    exact of_decide_eq_true ((Bool.and_eq_true _ _).mp (hcons p hp)).1
  cases hkey : request_key left right with
  | none =>
    rw [ppi_key_none m left right hkey] at hok
    have hm2 : m = m2 := congrArg Prod.snd hok
    rw [← hm2]
    exact hcons
  | some key =>
    rw [ppi_key_some m left right key hkey] at hok
    cases hidx : alistLookup m.key_to_index key with
    | none => rw [pck_absent m left right key hidx] at hok; simp at hok
    | some index =>
      rw [pck_found m left right key index hidx] at hok
      cases hrec : reconcile ((value_expressions left right).zip (stored_value m index)) with
      | error e => rw [prr_rec_error m left right index e hrec] at hok; simp at hok
      | ok uv =>
        obtain ⟨updates, values⟩ := uv
        rw [prr_rec_ok m left right index updates values hrec] at hok
        have hm2 : m2 = write_values m index values := by
          by_cases hc : none ∈ values
          · rw [if_pos hc] at hok; exact (congrArg Prod.snd hok).symm
          · rw [if_neg hc] at hok; exact (congrArg Prod.snd hok).symm
        subst hm2
        rw [data_consistent, List.all_eq_true]
        simp only [write_values]
        intro p hp
        rcases List.mem_cons.mp hp with rfl | hp2
        · refine (Bool.and_eq_true _ _).mpr ⟨decide_eq_true ?_, ?_⟩
          · obtain ⟨hlen, -⟩ := reconcile_ok_spec _ updates values hrec
            simp only
            rw [hlen, List.length_zip, hvlen, stored_value_length m index hlenrow]
            exact min_self _
          · rw [List.all_eq_true]
            intro se hse2
            obtain ⟨s, e⟩ := se
            cases s with
            | none => simp
            | some x =>
              obtain ⟨jj, hjj⟩ := List.mem_iff_getElem?.mp hse2
              obtain ⟨hv2, he2⟩ := getElem?_zip_inv _ _ jj _ _ hjj
              simp only at hv2 he2
              have he2m : (external_witness_values m index)[jj]? = some e := by
                rw [← he2]
                simp [external_witness_values]
              obtain ⟨l3, r3, hp3, hr3⟩ :=
                reconcile_ok_source _ updates values hrec jj (some x) hv2
              obtain ⟨-, hs3⟩ := getElem?_zip_inv _ _ jj _ _ hp3
              obtain ⟨s4, hs4, he4⟩ := stored_value_ext m index jj e hlenrow he2m
              have hr3s4 : r3 = s4 := by
                rw [hs3] at hs4
                exact Option.some.inj hs4
              rcases he4 with rfl | he5
              · simp
              · rcases hr3 with rfl | rfl <;> rw [← he5, ← hr3s4] <;> simp
        · have hpm : p ∈ m.data := List.mem_of_mem_filter hp2
          rw [data_consistent, List.all_eq_true] at hcons
          have hgood := hcons p hpm
          simp only [external_witness_values] at hgood ⊢
          exact hgood

theorem try_new_success_data {F : Type} [DecidableEq F] (fd : FixedData F)
    (conn ids : List (Identity F)) (a : WriteOnceMemory F)
    (h : try_new fd conn ids = .success a) : a.data = [] := by
  unfold try_new at h
  split at h
  · split at h
    · cases h
    · unfold try_new_nonempty at h
      split at h
      · split at h
        · cases h
        · split at h
          · cases h
          · unfold try_new_with_refs at h
            split at h
            · cases h
            · split at h
              · cases h
              · split at h
                · cases h
                · injection h with h2
                  rw [← h2]
      · cases h
  · cases h

theorem try_new_data_consistent {F : Type} [DecidableEq F] (fd : FixedData F)
    (conn ids : List (Identity F)) (a : WriteOnceMemory F)
    (h : try_new fd conn ids = .success a) : data_consistent a = true := by
  rw [data_consistent, try_new_success_data fd conn ids a h]
  rfl

/-! Witnesses: the claim theorems applied at concrete inputs. -/

/-- C1 witness: re-asserting the stored value seven at row two leaves the
slot holding seven. -/
theorem c1_witness :
    slot (write_values mEx7 2 [some 7]) 2 0 = some 7 :=
  c1_write_once_preserved mEx7 (write_values mEx7 2 [some 7]) [constE 2, constE 7] rhsEx
    ⟨[], .complete⟩ (by decide) (by decide) (by rfl) 2 0 7 (by rfl)

/-- C2 witness: a request with constant key one and an unknown value side is
incomplete with cause "non-constant value", stores an unset slot at row one,
and returns the (empty) accumulated updates. -/
theorem c2_witness :
    ∃ updates values,
      reconcile ((value_expressions [constE 1, varE 5] rhsEx).zip (stored_value mEx 1)) =
        .ok (updates, values) ∧
      (EvalValue.mk [] (.incomplete (.nonConstantRequiredArgument "value")) :
        EvalValue Nat (ZMod 11)).constraints = updates ∧
      alistLookup (write_values mEx 1 [none]).data 1 = some values ∧
      ((EvalValue.mk [] (.incomplete (.nonConstantRequiredArgument "value")) :
        EvalValue Nat (ZMod 11)).status = .complete ↔ ∀ s ∈ values, s ≠ none) ∧
      ((EvalValue.mk [] (.incomplete (.nonConstantRequiredArgument "value")) :
        EvalValue Nat (ZMod 11)).status ≠ .complete →
        (EvalValue.mk [] (.incomplete (.nonConstantRequiredArgument "value")) :
          EvalValue Nat (ZMod 11)).status =
          .incomplete (.nonConstantRequiredArgument "value")) :=
  c2_completeness_protocol mEx (write_values mEx 1 [none]) [constE 1, varE 5] rhsEx [1] 1
    ⟨[], .incomplete (.nonConstantRequiredArgument "value")⟩ rfl rfl rfl

/-- C3 witness: with the memory holding four at row two but the override
saying nine, the source of truth is nine, the slot ends up nine, and the
finalized column carries nine at row two. -/
theorem c3_witness :
    (stored_value mOvr 2)[0]? = some (some 9) ∧
    slot (write_values mOvr 2 [some 9]) 2 0 = some 9 ∧
    (2 < mOvr.fixedData.degree →
      ∃ col, (take_witness_col_values mOvr)[0]? =
          some (mOvr.fixedData.columnName valPoly, col) ∧
        col[2]? = some 9) :=
  c3_external_override_wins mOvr (write_values mOvr 2 [some 9]) [constE 2, constE 9] rhsEx
    [2] 2 0 valPoly 9 ⟨[], .complete⟩ (by decide) (by decide) rfl rfl rfl rfl rfl

/-- C5 witness: a request with an unknown key variable is declined as
incomplete with cause "non-constant key", no updates, machine unchanged. -/
theorem c5_witness :
    process_plookup_internal mEx [varE 3, constE 1] rhsEx =
      (.ok ⟨[], .incomplete (.nonConstantRequiredArgument "key")⟩, mEx) :=
  c5_non_constant_key mEx [varE 3, constE 1] rhsEx rfl

/-- C6 witness: with only row two holding seven, the finalized value column is
dense of length four, seven at row two and zero elsewhere. -/
theorem c6_witness :
    ∃ col, (take_witness_col_values mEx7)[0]? =
        some (mEx7.fixedData.columnName valPoly, col) ∧
      col.length = mEx7.fixedData.degree ∧
      ∀ row, row < mEx7.fixedData.degree →
        col[row]? =
          some (((alistLookup mEx7.data row).map fun vs => (vs.getD 0 none).getD 0).getD 0) :=
  c6_finalizer_dense_column mEx7 0 valPoly (by decide) rfl rfl

/-- C7 witness: with a constantly-zero address column of degree two, the key
tuple repeats across rows zero and one and construction declines. -/
theorem c7_witness :
    try_new fdDup [idEx] ([] : List (Identity (ZMod 11))) = .notApplicable :=
  (c7_injective_address_table fdDup [idEx] [] idEx [] [keyRef, valRef] rfl rfl (by decide)
    rfl rfl (by decide)).1 ⟨0, 1, by decide, by decide, by decide, by decide⟩

/-- C8 witness: the amended claim evaluated at the concrete candidate whose
key column references the shifted row. -/
theorem c8_witness :
    try_new fdDup [idNext] ([] : List (Identity (ZMod 11))) = .panicked :=
  c8_shifted_key_panics fdDup [idNext] [] idNext [] [keyRefNext, valRef] rfl rfl (by decide)
    rfl rfl (by decide)

/-- C9 witness: a request with the absent key nine fails fatally and leaves
the machine state exactly as before. -/
theorem c9_witness :
    (process_plookup_internal mEx [constE 9, constE 1] rhsEx).2 = mEx :=
  c9_error_atomicity mEx [constE 9, constE 1] rhsEx "Key not found in write-once memory" rfl
